import Mathlib

/-!
Shallow embedding of the badger LED-sign encoder (src/main.rs).

Bytes are modelled as `Nat` values; `u8`/`u16` overflow is made explicit
with `% 256` / `% 65536` exactly where the Rust code wraps or casts.
Rust panics (out-of-bounds indexing, debug-mode shift overflow) are
modelled as `Except.error`; the happy path returns `Except.ok`.

The glyph table (`font::get_char_data`, an external collaborator whose
file is not part of the encoder core) is a parameter `g : Char → Fin 7 → Nat`
giving the 7 row bitmasks of a character, mirroring its `[u8; 7]` result.
-/

/-- The `Mode` enum of src/main.rs (repr(u8), discriminants 0..8). -/
inductive Mode where
  | scrollLeft
  | scrollRight
  | scrollUp
  | scrollDown
  | fixed
  | animation
  | snowflake
  | picture
  | laser
deriving DecidableEq

/-- The numeric value of a mode, `bitmap.mode as u8` in the source. -/
def Mode.toU8 : Mode → Nat
  | .scrollLeft => 0
  | .scrollRight => 1
  | .scrollUp => 2
  | .scrollDown => 3
  | .fixed => 4
  | .animation => 5
  | .snowflake => 6
  | .picture => 7
  | .laser => 8

/-- Modelled from the spec: decoding a 4-bit mode code back to a `Mode`
(the source only encodes; the claim about round-tripping defines the
decoder as the inverse numeric mapping on codes 0–8). -/
def Mode.ofCode : Nat → Option Mode
  | 0 => some .scrollLeft
  | 1 => some .scrollRight
  | 2 => some .scrollUp
  | 3 => some .scrollDown
  | 4 => some .fixed
  | 5 => some .animation
  | 6 => some .snowflake
  | 7 => some .picture
  | 8 => some .laser
  | _ => none

/-- The `Bitmap` struct of src/main.rs: one display slot. `speed` is a
`u8`, `data` a byte vector. -/
structure Bitmap where
  flash : Bool
  marquee : Bool
  mode : Mode
  speed : Nat
  data : List Nat
deriving DecidableEq

/-- The `Data` struct of src/main.rs: the ordered slots to encode. -/
structure Data where
  bitmaps : List Bitmap
deriving DecidableEq

/-- The 11-row cell built for one character inside `Bitmap::put_string`:
start from `vec![0u8; 11]` and copy the 7 glyph rows to indices 2..8
(`char_rows[row_idx + 2] = char_row`). -/
def charBlock (g : Char → Fin 7 → Nat) (c : Char) : List Nat :=
  (List.finRange 7).foldl (fun rows i => rows.set (i.val + 2) (g c i))
    (List.replicate 11 0)

/-- `Bitmap::put_string`: clear `data`, then for each character of `s`
append its 11-row cell. -/
def Bitmap.put_string (g : Char → Fin 7 → Nat) (b : Bitmap) (s : List Char) :
    Bitmap :=
  { b with data := s.foldl (fun acc c => acc ++ charBlock g c) [] }

/-- Modelled from the spec: the GlyphRasterizer contract (§4.1) — the
source implements it inside `Bitmap::put_string`; one character maps to
one 11-byte cell, blocks concatenated in character order. -/
def rasterize (g : Char → Fin 7 → Nat) (s : List Char) : List Nat :=
  (s.map (charBlock g)).flatten

/-- Fuel-indexed body of Rust `slice::chunks_exact(n)`: emit full `n`-byte
chunks in order; a final partial chunk (fewer than `n` elements) is not
emitted. The fuel is only a termination device; `chunksExact` supplies
enough of it. -/
def chunksExactAux (n : Nat) : Nat → List Nat → List (List Nat)
  | 0, _ => []
  | fuel + 1, l =>
      if 0 < n ∧ n ≤ l.length then l.take n :: chunksExactAux n fuel (l.drop n)
      else []

/-- Rust `slice::chunks_exact(n)` as a list of chunks. -/
def chunksExact (n : Nat) (l : List Nat) : List (List Nat) :=
  chunksExactAux n l.length l

/-- The panics `Data::to_bytes` can hit in the source: indexing
`modes[i]`/`sizes[i]` out of bounds, or (debug-mode) overflow of the
shift `1 << i`. -/
inductive EncodeErr where
  | shiftOverflow
  | indexOutOfBounds (i : Nat)
deriving DecidableEq

/-- `1u8 << i` with Rust debug semantics: panics when the shift amount
reaches the bit width. -/
def shl1u8 (i : Nat) : Except EncodeErr Nat :=
  if i < 8 then .ok (1 <<< i) else .error .shiftOverflow

/-- Array store `a[i] = v`; Rust panics when `i` is out of bounds. -/
def setArr (a : List Nat) (i : Nat) (v : Nat) : Except EncodeErr (List Nat) :=
  if i < a.length then .ok (a.set i v) else .error (.indexOutOfBounds i)

/-- The conditional `if cond { cur |= 1 << i }` from the header loop. -/
def orBit (cur : Nat) (cond : Bool) (i : Nat) : Except EncodeErr Nat :=
  if cond then do
    let b ← shl1u8 i
    pure (cur ||| b)
  else pure cur

/-- `bitmap.speed << 4 | (bitmap.mode as u8)` on `u8` values: the shift
wraps modulo 256, the mode code (0..8) fits the low nibble. -/
def modeByte (b : Bitmap) : Nat := ((b.speed <<< 4) % 256) ||| b.mode.toU8

/-- `bitmap.data.chunks_exact(11).count() as u16`: the chunk count cast
to `u16`, i.e. reduced modulo 65536. -/
def sizeEntry (b : Bitmap) : Nat := (chunksExact 11 b.data).length % 65536

/-- State of the header loop of `Data::to_bytes`: the `flash`/`marquee`
accumulators and the `modes`/`sizes` arrays. -/
structure HeaderAcc where
  flash : Nat
  marquee : Nat
  modes : List Nat
  sizes : List Nat
deriving DecidableEq

/-- One iteration of the header loop (lines 88–97 of src/main.rs) at
enumerated pair `(i, bitmap)`. -/
def headerStep (acc : HeaderAcc) (p : Nat × Bitmap) :
    Except EncodeErr HeaderAcc := do
  let flash ← orBit acc.flash p.2.flash p.1
  let marquee ← orBit acc.marquee p.2.marquee p.1
  let modes ← setArr acc.modes p.1 (modeByte p.2)
  let sizes ← setArr acc.sizes p.1 (sizeEntry p.2)
  pure ⟨flash, marquee, modes, sizes⟩

/-- `u16::to_be_bytes`. -/
def be16 (v : Nat) : List Nat := [v / 256 % 256, v % 256]

/-- One iteration of the payload loop (lines 114–123): extend the output
with an 11-byte chunk, then `data_bytes.checked_add(11)` on the `u8`
counter — on overflow the counter is left unchanged (`continue`). -/
def payloadStep (acc : List Nat × Nat) (chunk : List Nat) :
    List Nat × Nat :=
  (acc.1 ++ chunk, if acc.2 + 11 ≤ 255 then acc.2 + 11 else acc.2)

/-- The magic prefix `b"wang\0\0"`. -/
def magicBytes : List Nat := [0x77, 0x61, 0x6e, 0x67, 0x00, 0x00]

/-- The header bytes assembled on lines 99–110: magic, flash, marquee,
the 8 mode bytes, the 8 big-endian u16 sizes, then the 6+6+4+16 zero
bytes (padding, timestamp, padding, separator). -/
def headerBytes (h : HeaderAcc) : List Nat :=
  magicBytes ++ h.flash :: h.marquee ::
    (h.modes ++ (h.sizes.map be16).flatten ++ List.replicate 6 0 ++
      List.replicate 6 0 ++ List.replicate 4 0 ++ List.replicate 16 0)

/-- The initial header-loop state: `flash = 0`, `marquee = 0`,
`modes = [0u8; 8]`, `sizes = [0u16; 8]`. -/
def acc0 : HeaderAcc := ⟨0, 0, List.replicate 8 0, List.replicate 8 0⟩

/-- `Data::to_bytes` (lines 79–131): build the header via the enumerated
loop (panics modelled as errors), append every exact 11-byte chunk of
every bitmap while counting payload bytes in a `u8`, then append
`data_bytes % 16` zero bytes when that value is non-zero. -/
def Data.to_bytes (d : Data) : Except EncodeErr (List Nat) := do
  let h ← d.bitmaps.enum.foldlM headerStep acc0
  let chunks := (d.bitmaps.map (fun b => chunksExact 11 b.data)).flatten
  let r := chunks.foldl payloadStep (headerBytes h, 0)
  let padding := r.2 % 16
  pure (if padding ≠ 0 then r.1 ++ List.replicate padding 0 else r.1)

/-- The transmission loop of `main` splits the encoded stream with
`data_bytes.chunks_exact(16)` (line 223). -/
def chunkFramer (s : List Nat) : List (List Nat) := chunksExact 16 s

/-- Per-chunk evolution of the `u8` byte counter (second component of
`payloadStep`). -/
def dbf (x : Nat) : Nat := if x + 11 ≤ 255 then x + 11 else x

/-- Pure description of the header loop when no panic occurs: what the
accumulator becomes at one enumerated pair. -/
def applyHdr (p : Nat × Bitmap) (acc : HeaderAcc) : HeaderAcc :=
  ⟨if p.2.flash then acc.flash ||| 1 <<< p.1 else acc.flash,
   if p.2.marquee then acc.marquee ||| 1 <<< p.1 else acc.marquee,
   acc.modes.set p.1 (modeByte p.2),
   acc.sizes.set p.1 (sizeEntry p.2)⟩

/-- Pure description of the whole header loop starting at slot `n`. -/
def headerFold : Nat → List Bitmap → HeaderAcc → HeaderAcc
  | _, [], acc => acc
  | n, b :: tl, acc => headerFold (n + 1) tl (applyHdr (n, b) acc)

/-- The exact 11-byte chunks of all bitmaps, in slot order. -/
def pixelChunks (d : Data) : List (List Nat) :=
  (d.bitmaps.map (fun b => chunksExact 11 b.data)).flatten

/-- The pixel payload emitted by `Data::to_bytes`. -/
def pixelBytes (d : Data) : List Nat := (pixelChunks d).flatten

/-- Final value of the `u8` payload counter `data_bytes`. -/
def dbCounter (d : Data) : Nat := (pixelChunks d).foldl (fun a _ => dbf a) 0

/-- The trailing zero bytes `Data::to_bytes` appends: `data_bytes % 16`
of them. -/
def trailPad (d : Data) : List Nat := List.replicate (dbCounter d % 16) 0

/-- Follows the claim wording: the flash bitmask as the bitwise OR of
`1 <<< i` over the slots with `flash = true`. -/
def specFlashMask (bs : List Bitmap) : Nat :=
  bs.enum.foldl (fun a p => if p.2.flash then a ||| 1 <<< p.1 else a) 0

/-- Follows the claim wording: the marquee bitmask as the bitwise OR of
`1 <<< i` over the slots with `marquee = true`. -/
def specMarqueeMask (bs : List Bitmap) : Nat :=
  bs.enum.foldl (fun a p => if p.2.marquee then a ||| 1 <<< p.1 else a) 0

/-- The 64 header bytes produced for a single slot with `flash = false`,
`marquee = false`, `mode = Fixed`, `speed = 5` and exactly one 11-byte
row-group: magic, zero bitmasks, mode byte `0x54`, size table `[1, 0, …]`
big-endian, then 32 reserved zero bytes. -/
def hdr64 : List Nat :=
  [0x77, 0x61, 0x6e, 0x67, 0, 0,
   0, 0,
   0x54, 0, 0, 0, 0, 0, 0, 0,
   0, 1, 0, 0, 0, 0, 0, 0, 0, 0, 0, 0, 0, 0, 0, 0,
   0, 0, 0, 0, 0, 0, 0, 0, 0, 0, 0, 0, 0, 0, 0, 0,
   0, 0, 0, 0, 0, 0, 0, 0, 0, 0, 0, 0, 0, 0, 0, 0]

/-- One slot holding a single 11-byte row-group: the shape of a
one-character message with mode Fixed and speed 5. -/
def exampleA : Data := ⟨[⟨false, false, .fixed, 5, List.replicate 11 0⟩]⟩

/-- Nine slots, none with flash or marquee set. -/
def nineQuiet : Data := ⟨List.replicate 9 ⟨false, false, .scrollLeft, 0, []⟩⟩

/-- Nine slots where the ninth has `flash = true`. -/
def nineFlash : Data :=
  ⟨List.replicate 8 ⟨false, false, .scrollLeft, 0, []⟩ ++
    [⟨true, false, .scrollLeft, 0, []⟩]⟩

/-- A single slot whose data holds 65536 row-groups (11 · 65536 bytes),
one more row-group than a u16 can count. -/
def bigData : Data :=
  ⟨[⟨false, false, .scrollLeft, 0, List.replicate (11 * 65536) 0⟩]⟩

/-- A single slot with two row-groups (22 data bytes). -/
def smallData : Data := ⟨[⟨false, false, .scrollLeft, 0, List.replicate 22 0⟩]⟩

/-- Three slots with mixed flash/marquee flags: flash on slots 0 and 2
(mask 5), marquee on slots 1 and 2 (mask 6). -/
def maskData : Data :=
  ⟨[⟨true, false, .scrollLeft, 0, []⟩, ⟨false, true, .scrollLeft, 0, []⟩,
    ⟨true, true, .scrollLeft, 0, []⟩]⟩

/-- A concrete glyph table used in witnesses: row `i` of every character
is `i + 1`. -/
def wGlyph : Char → Fin 7 → Nat := fun _ i => (i : Nat) + 1

/-- Modelled from the spec: the decoder of a packed mode byte takes the
high nibble as the speed (the source only encodes). -/
def nibbleHigh (x : Nat) : Nat := x >>> 4

/-- Modelled from the spec: the decoder of a packed mode byte takes the
low nibble as the mode code (the source only encodes). -/
def nibbleLow (x : Nat) : Nat := x % 16

theorem okBind {α β : Type} (a : α) (f : α → Except EncodeErr β) :
    (Except.ok a >>= f) = f a := rfl

theorem errBind {α β : Type} (e : EncodeErr) (f : α → Except EncodeErr β) :
    ((Except.error e : Except EncodeErr α) >>= f) = Except.error e := rfl

theorem chunksExactAux_congrFuel {n : Nat} :
    ∀ f₁ f₂ (l : List Nat), l.length ≤ f₁ → l.length ≤ f₂ →
      chunksExactAux n f₁ l = chunksExactAux n f₂ l := by
  intro f₁
  induction f₁ with
  | zero =>
    intro f₂ l h₁ _
    have hl : l.length = 0 := Nat.le_zero.mp h₁
    cases f₂ with
    | zero => rfl
    | succ f =>
      simp only [chunksExactAux]
      rw [if_neg]
      rintro ⟨hn, hle⟩
      omega
  | succ f ih =>
    intro f₂ l h₁ h₂
    cases f₂ with
    | zero =>
      have hl : l.length = 0 := Nat.le_zero.mp h₂
      simp only [chunksExactAux]
      rw [if_neg]
      rintro ⟨hn, hle⟩
      omega
    | succ f' =>
      simp only [chunksExactAux]
      by_cases hc : 0 < n ∧ n ≤ l.length
      · rw [if_pos hc, if_pos hc]
        have hd : (l.drop n).length ≤ f := by
          rw [List.length_drop]; omega
        have hd' : (l.drop n).length ≤ f' := by
          rw [List.length_drop]; omega
        rw [ih f' (l.drop n) hd hd']
      · rw [if_neg hc, if_neg hc]

theorem chunksExact_eq_nil {n : Nat} {l : List Nat} (h : l.length < n) :
    chunksExact n l = [] := by
  unfold chunksExact
  cases hl : l.length with
  | zero => rfl
  | succ m =>
    simp only [chunksExactAux]
    rw [if_neg]
    rintro ⟨hn, hle⟩
    omega

theorem chunksExact_eq_cons {n : Nat} {l : List Nat} (hn : 0 < n)
    (h : n ≤ l.length) :
    chunksExact n l = l.take n :: chunksExact n (l.drop n) := by
  unfold chunksExact
  cases hl : l.length with
  | zero => omega
  | succ m =>
    simp only [chunksExactAux]
    rw [if_pos ⟨hn, h⟩]
    congr 1
    apply chunksExactAux_congrFuel
    · rw [List.length_drop]; omega
    · exact Nat.le_refl _

theorem chunksExact_length {n : Nat} (hn : 0 < n) (l : List Nat) :
    (chunksExact n l).length = l.length / n := by
  have aux : ∀ fuel (l : List Nat), l.length ≤ fuel →
      (chunksExactAux n fuel l).length = l.length / n := by
    intro fuel
    induction fuel with
    | zero =>
      intro l h
      have : l.length = 0 := Nat.le_zero.mp h
      simp [chunksExactAux, this, Nat.zero_div]
    | succ f ih =>
      intro l h
      simp only [chunksExactAux]
      by_cases hc : 0 < n ∧ n ≤ l.length
      · rw [if_pos hc, List.length_cons, ih (l.drop n)
          (by rw [List.length_drop]; omega)]
        rw [List.length_drop, Nat.div_eq_sub_div hn hc.2]
      · rw [if_neg hc]
        have : l.length < n := by
          rcases Nat.lt_or_ge l.length n with h' | h'
          · exact h'
          · exact absurd ⟨hn, h'⟩ hc
        simp [Nat.div_eq_of_lt this]
  exact aux l.length l (Nat.le_refl _)

theorem chunksExact_flatten {n : Nat} (hn : 0 < n) (l : List Nat) :
    (chunksExact n l).flatten = l.take (n * (l.length / n)) := by
  have aux : ∀ fuel (l : List Nat), l.length ≤ fuel →
      (chunksExactAux n fuel l).flatten = l.take (n * (l.length / n)) := by
    intro fuel
    induction fuel with
    | zero =>
      intro l h
      have h0 : l.length = 0 := Nat.le_zero.mp h
      have : l = [] := List.length_eq_zero.mp h0
      simp [chunksExactAux, this]
    | succ f ih =>
      intro l h
      simp only [chunksExactAux]
      by_cases hc : 0 < n ∧ n ≤ l.length
      · rw [if_pos hc, List.flatten_cons, ih (l.drop n)
          (by rw [List.length_drop]; omega)]
        rw [List.length_drop, Nat.div_eq_sub_div hn hc.2, Nat.mul_add,
          Nat.mul_one, Nat.add_comm (n * ((l.length - n) / n)) n,
          List.take_add]
      · rw [if_neg hc]
        have hlt : l.length < n := by
          rcases Nat.lt_or_ge l.length n with h' | h'
          · exact h'
          · exact absurd ⟨hn, h'⟩ hc
        simp [Nat.div_eq_of_lt hlt]
  exact aux l.length l (Nat.le_refl _)

theorem chunksExact_self {n : Nat} {l : List Nat} (hn : 0 < n)
    (h : l.length = n) : chunksExact n l = [l] := by
  rw [chunksExact_eq_cons hn (by omega)]
  rw [← h, List.take_length, List.drop_length]
  rfl

theorem chunksExact_replicate {n : Nat} (hn : 0 < n) (k : Nat) (x : Nat) :
    chunksExact n (List.replicate (n * k) x) =
      List.replicate k (List.replicate n x) := by
  induction k with
  | zero => simp [chunksExact, chunksExactAux]
  | succ j ih =>
    rw [chunksExact_eq_cons hn
      (by rw [List.length_replicate]; exact Nat.le_mul_of_pos_right n (by omega))]
    rw [List.take_replicate, List.drop_replicate]
    have h1 : min n (n * (j + 1)) = n := by
      have : n ≤ n * (j + 1) := Nat.le_mul_of_pos_right n (by omega)
      omega
    have h2 : n * (j + 1) - n = n * j := by ring_nf; omega
    rw [h1, h2, ih]
    rfl

theorem payload_fst :
    ∀ (chunks : List (List Nat)) (pre : List Nat) (db : Nat),
      (chunks.foldl payloadStep (pre, db)).1 = pre ++ chunks.flatten := by
  intro chunks
  induction chunks with
  | nil => intro pre db; simp
  | cons c tl ih =>
    intro pre db
    simp only [List.foldl_cons, payloadStep, List.flatten_cons]
    rw [ih, List.append_assoc]

theorem payload_snd :
    ∀ (chunks : List (List Nat)) (pre : List Nat) (db : Nat),
      (chunks.foldl payloadStep (pre, db)).2 =
        chunks.foldl (fun a _ => dbf a) db := by
  intro chunks
  induction chunks with
  | nil => intro pre db; rfl
  | cons c tl ih =>
    intro pre db
    simp only [List.foldl_cons, payloadStep]
    rw [ih]
    rfl

theorem foldl_dbf_replicate (k : Nat) (c : List Nat) :
    ∀ db, (List.replicate k c).foldl (fun a _ => dbf a) db = dbf^[k] db := by
  induction k with
  | zero => intro db; rfl
  | succ j ih =>
    intro db
    rw [List.replicate_succ, List.foldl_cons, ih, Function.iterate_succ_apply]

theorem orBit_lt {i : Nat} (c : Nat) (f : Bool) (h : i < 8) :
    orBit c f i = .ok (if f then c ||| 1 <<< i else c) := by
  cases f
  · rfl
  · simp only [orBit, shl1u8, if_pos h, okBind, if_true]
    rfl

theorem headerStep_ok {acc : HeaderAcc} {i : Nat} {b : Bitmap} (h8 : i < 8)
    (hm : acc.modes.length = 8) (hs : acc.sizes.length = 8) :
    headerStep acc (i, b) = .ok (applyHdr (i, b) acc) := by
  simp only [headerStep, orBit_lt _ _ h8, okBind, setArr, hm, hs, h8,
    if_pos, applyHdr]
  rfl

theorem applyHdr_modes_length (p : Nat × Bitmap) (acc : HeaderAcc) :
    (applyHdr p acc).modes.length = acc.modes.length := by
  simp [applyHdr]

theorem applyHdr_sizes_length (p : Nat × Bitmap) (acc : HeaderAcc) :
    (applyHdr p acc).sizes.length = acc.sizes.length := by
  simp [applyHdr]

theorem enumFrom_foldlM :
    ∀ (bs : List Bitmap) (n : Nat) (acc : HeaderAcc),
      n + bs.length ≤ 8 → acc.modes.length = 8 → acc.sizes.length = 8 →
      (List.enumFrom n bs).foldlM headerStep acc = .ok (headerFold n bs acc) := by
  intro bs
  induction bs with
  | nil => intro n acc _ _ _; rfl
  | cons b tl ih =>
    intro n acc h hm hs
    have hn : n < 8 := by simp [List.length_cons] at h; omega
    simp only [List.enumFrom, List.foldlM_cons, headerStep_ok hn hm hs, okBind]
    rw [headerFold]
    exact ih (n + 1) (applyHdr (n, b) acc)
      (by simp [List.length_cons] at h ⊢; omega)
      (by rw [applyHdr_modes_length]; exact hm)
      (by rw [applyHdr_sizes_length]; exact hs)

theorem headerFold_modes_length :
    ∀ (bs : List Bitmap) (n : Nat) (acc : HeaderAcc),
      (headerFold n bs acc).modes.length = acc.modes.length := by
  intro bs
  induction bs with
  | nil => intro n acc; rfl
  | cons b tl ih =>
    intro n acc
    rw [headerFold, ih, applyHdr_modes_length]

theorem headerFold_sizes_length :
    ∀ (bs : List Bitmap) (n : Nat) (acc : HeaderAcc),
      (headerFold n bs acc).sizes.length = acc.sizes.length := by
  intro bs
  induction bs with
  | nil => intro n acc; rfl
  | cons b tl ih =>
    intro n acc
    rw [headerFold, ih, applyHdr_sizes_length]

theorem headerFold_flash :
    ∀ (bs : List Bitmap) (n : Nat) (acc : HeaderAcc),
      (headerFold n bs acc).flash =
        (List.enumFrom n bs).foldl
          (fun a p => if p.2.flash then a ||| 1 <<< p.1 else a) acc.flash := by
  intro bs
  induction bs with
  | nil => intro n acc; rfl
  | cons b tl ih =>
    intro n acc
    rw [headerFold, ih]
    rfl

theorem headerFold_marquee :
    ∀ (bs : List Bitmap) (n : Nat) (acc : HeaderAcc),
      (headerFold n bs acc).marquee =
        (List.enumFrom n bs).foldl
          (fun a p => if p.2.marquee then a ||| 1 <<< p.1 else a) acc.marquee := by
  intro bs
  induction bs with
  | nil => intro n acc; rfl
  | cons b tl ih =>
    intro n acc
    rw [headerFold, ih]
    rfl

theorem pureIsOk {α : Type} (a : α) :
    (pure a : Except EncodeErr α) = Except.ok a := rfl

theorem enum_foldlM_acc0 (d : Data) (h : d.bitmaps.length ≤ 8) :
    d.bitmaps.enum.foldlM headerStep acc0 =
      .ok (headerFold 0 d.bitmaps acc0) := by
  have he : d.bitmaps.enum = List.enumFrom 0 d.bitmaps := rfl
  rw [he]
  exact enumFrom_foldlM d.bitmaps 0 acc0 (by omega) (by simp [acc0])
    (by simp [acc0])

theorem to_bytes_ok (d : Data) (h : d.bitmaps.length ≤ 8) :
    Data.to_bytes d =
      .ok (headerBytes (headerFold 0 d.bitmaps acc0) ++ pixelBytes d ++
        trailPad d) := by
  simp only [Data.to_bytes, enum_foldlM_acc0 d h, okBind]
  rw [payload_fst, payload_snd]
  simp only [pixelBytes, pixelChunks, dbCounter, trailPad, pureIsOk]
  by_cases hp :
      ((d.bitmaps.map (fun b => chunksExact 11 b.data)).flatten.foldl
        (fun a _ => dbf a) 0) % 16 = 0
  · rw [if_neg (by simpa using hp), hp]
    simp
  · rw [if_pos (by simpa using hp), List.append_assoc]

theorem headerFold_sizes_lt :
    ∀ (bs : List Bitmap) (n : Nat) (acc : HeaderAcc) (j : Nat), j < n →
      (headerFold n bs acc).sizes[j]? = acc.sizes[j]? := by
  intro bs
  induction bs with
  | nil => intro n acc j _; rfl
  | cons b tl ih =>
    intro n acc j hj
    rw [headerFold, ih (n + 1) _ j (by omega)]
    simp only [applyHdr, List.getElem?_set]
    rw [if_neg (by omega)]

theorem headerFold_sizes_getElem :
    ∀ (bs : List Bitmap) (n : Nat) (acc : HeaderAcc) (i : Nat)
      (hacc : n + bs.length ≤ acc.sizes.length) (hi : i < bs.length),
      (headerFold n bs acc).sizes[n + i]? = some (sizeEntry (bs[i])) := by
  intro bs
  induction bs with
  | nil => intro n acc i _ hi; exact absurd hi (by simp)
  | cons b tl ih =>
    intro n acc i hacc hi
    cases i with
    | zero =>
      rw [headerFold, headerFold_sizes_lt tl (n + 1) _ (n + 0) (by omega)]
      simp only [applyHdr, List.getElem?_set, Nat.add_zero, if_pos rfl]
      rw [if_pos (show n < acc.sizes.length by
        simp only [List.length_cons] at hacc; omega)]
      rfl
    | succ j =>
      rw [headerFold]
      have : n + (j + 1) = (n + 1) + j := by omega
      rw [this, ih (n + 1) _ j
        (by rw [applyHdr_sizes_length]; simp [List.length_cons] at hacc; omega)
        (by simp [List.length_cons] at hi; omega)]
      rfl

theorem headerStep_ok_inv {acc acc' : HeaderAcc} {p : Nat × Bitmap}
    (h : headerStep acc p = .ok acc') :
    p.1 < acc.modes.length ∧ acc'.modes.length = acc.modes.length := by
  simp only [headerStep] at h
  cases hf : orBit acc.flash p.2.flash p.1 with
  | error e => rw [hf, errBind] at h; exact Except.noConfusion h
  | ok fl =>
    rw [hf, okBind] at h
    cases hq : orBit acc.marquee p.2.marquee p.1 with
    | error e => rw [hq, errBind] at h; exact Except.noConfusion h
    | ok mq =>
      rw [hq, okBind] at h
      by_cases him : p.1 < acc.modes.length
      · simp only [setArr, if_pos him, okBind] at h
        by_cases his : p.1 < acc.sizes.length
        · rw [if_pos his, okBind, pureIsOk] at h
          injection h with h2
          rw [← h2]
          exact ⟨him, by simp⟩
        · rw [if_neg his, errBind] at h; exact Except.noConfusion h
      · simp only [setArr, if_neg him, errBind] at h
        exact Except.noConfusion h

theorem foldlM_headerStep_ok_indices :
    ∀ (l : List (Nat × Bitmap)) (acc acc' : HeaderAcc),
      l.foldlM headerStep acc = .ok acc' →
      ∀ p ∈ l, p.1 < acc.modes.length := by
  intro l
  induction l with
  | nil => intro acc acc' _ p hp; exact absurd hp (by simp)
  | cons q tl ih =>
    intro acc acc' h p hp
    rw [List.foldlM_cons] at h
    cases hq : headerStep acc q with
    | error e => rw [hq] at h; rw [errBind] at h; exact Except.noConfusion h
    | ok mid =>
      rw [hq] at h
      rw [okBind] at h
      rcases List.mem_cons.mp hp with rfl | hp₂
      · exact (headerStep_ok_inv hq).1
      · have hlt := ih mid acc' h p hp₂
        rwa [(headerStep_ok_inv hq).2] at hlt

theorem mem_enum_of_lt {l : List Bitmap} {i : Nat} (h : i < l.length) :
    (i, l[i]) ∈ l.enum := by
  rw [List.mem_enum_iff_getElem?]
  exact List.getElem?_eq_getElem h

theorem charBlock_eq (g : Char → Fin 7 → Nat) (c : Char) :
    charBlock g c =
      [0, 0, g c 0, g c 1, g c 2, g c 3, g c 4, g c 5, g c 6, 0, 0] := rfl

theorem charBlock_length (g : Char → Fin 7 → Nat) (c : Char) :
    (charBlock g c).length = 11 := by
  rw [charBlock_eq]; rfl

theorem rasterize_cons (g : Char → Fin 7 → Nat) (c : Char) (tl : List Char) :
    rasterize g (c :: tl) = charBlock g c ++ rasterize g tl := rfl

theorem put_string_data (g : Char → Fin 7 → Nat) (b : Bitmap)
    (s : List Char) : (Bitmap.put_string g b s).data = rasterize g s := by
  have aux : ∀ (s : List Char) (acc : List Nat),
      s.foldl (fun a c => a ++ charBlock g c) acc =
        acc ++ (s.map (charBlock g)).flatten := by
    intro s
    induction s with
    | nil => intro acc; simp
    | cons c tl ih =>
      intro acc
      simp only [List.foldl_cons, List.map_cons, List.flatten_cons, ih,
        List.append_assoc]
  simp only [Bitmap.put_string, rasterize, aux, List.nil_append]

theorem rasterize_length (g : Char → Fin 7 → Nat) (s : List Char) :
    (rasterize g s).length = s.length * 11 := by
  induction s with
  | nil => rfl
  | cons c tl ih =>
    rw [rasterize_cons, List.length_append, charBlock_length, ih,
      List.length_cons]
    ring

theorem drop11_charBlock (g : Char → Fin 7 → Nat) (c : Char) (X : List Nat) :
    (charBlock g c ++ X).drop 11 = X := by
  rw [← charBlock_length g c, List.drop_left]

theorem take11_charBlock (g : Char → Fin 7 → Nat) (c : Char) (X : List Nat) :
    (charBlock g c ++ X).take 11 = charBlock g c := by
  rw [← charBlock_length g c, List.take_left]

theorem rasterize_drop (g : Char → Fin 7 → Nat) :
    ∀ (k : Nat) (s : List Char), k ≤ s.length →
      (rasterize g s).drop (11 * k) = rasterize g (s.drop k) := by
  intro k
  induction k with
  | zero => intro s _; simp
  | succ j ih =>
    intro s hk
    cases s with
    | nil => simp at hk
    | cons c tl =>
      rw [rasterize_cons, List.drop_succ_cons, Nat.mul_succ, Nat.add_comm,
        ← List.drop_drop, drop11_charBlock]
      exact ih tl (by simp [List.length_cons] at hk; omega)

theorem rasterize_block (g : Char → Fin 7 → Nat) (s : List Char) (k : Nat)
    (hk : k < s.length) :
    ((rasterize g s).drop (11 * k)).take 11 = charBlock g s[k] := by
  rw [rasterize_drop g k s (Nat.le_of_lt hk),
    ← List.getElem_cons_drop s k hk, rasterize_cons, take11_charBlock]

theorem be16_flatten_drop :
    ∀ (i : Nat) (sz : List Nat), i ≤ sz.length →
      ((sz.map be16).flatten).drop (2 * i) = ((sz.drop i).map be16).flatten := by
  intro i
  induction i with
  | zero => intro sz _; simp
  | succ j ih =>
    intro sz h
    cases sz with
    | nil => simp at h
    | cons v tl =>
      simp only [List.map_cons, List.flatten_cons, List.drop_succ_cons]
      rw [Nat.mul_succ, Nat.add_comm, ← List.drop_drop]
      have h2 : (be16 v ++ (tl.map be16).flatten).drop 2 =
          (tl.map be16).flatten := by
        rw [show (2 : Nat) = (be16 v).length from rfl, List.drop_left]
      rw [h2]
      exact ih tl (by simp [List.length_cons] at h; omega)

theorem be16_take (v : Nat) (X : List Nat) :
    (be16 v ++ X).take 2 = be16 v := by
  rw [show (2 : Nat) = (be16 v).length from rfl, List.take_left]

theorem be16_flatten_length (sz : List Nat) :
    ((sz.map be16).flatten).length = 2 * sz.length := by
  induction sz with
  | nil => rfl
  | cons v tl ih =>
    simp only [List.map_cons, List.flatten_cons, List.length_append, ih,
      List.length_cons]
    rw [show (be16 v).length = 2 from rfl]
    ring

theorem headerBytes_length (hAcc : HeaderAcc) (hm : hAcc.modes.length = 8)
    (hs : hAcc.sizes.length = 8) : (headerBytes hAcc).length = 64 := by
  simp only [headerBytes, magicBytes, List.length_append, List.length_cons,
    List.length_replicate, be16_flatten_length, hm, hs]
  norm_num

theorem headerBytes_decomp (hAcc : HeaderAcc) (t : List Nat) :
    headerBytes hAcc ++ t =
      (magicBytes ++ hAcc.flash :: hAcc.marquee :: hAcc.modes) ++
        ((hAcc.sizes.map be16).flatten ++
          (List.replicate 6 0 ++ List.replicate 6 0 ++ List.replicate 4 0 ++
            List.replicate 16 0 ++ t)) := by
  simp [headerBytes, List.append_assoc]

theorem flatten_replicate_replicate (k n : Nat) (x : Nat) :
    (List.replicate k (List.replicate n x)).flatten =
      List.replicate (n * k) x := by
  induction k with
  | zero => simp
  | succ j ih =>
    rw [List.replicate_succ, List.flatten_cons, ih, Nat.mul_succ,
      Nat.add_comm, List.replicate_add]

theorem dbf_iter_ge (k : Nat) (h : 23 ≤ k) : dbf^[k] 0 = 253 := by
  have h23 : dbf^[23] (0 : Nat) = 253 := by decide
  have hk : k = (k - 23) + 23 := by omega
  rw [hk, Function.iterate_add_apply, h23]
  exact Function.iterate_fixed (by decide) (k - 23)

/-- C1: the claim states that for every unit sequence the encoder appends
exactly `(16 - (P mod 16)) mod 16` trailing zero bytes (`P` = total pixel
bytes), making `P` plus padding a multiple of 16. The code instead
appends `P mod 16` zero bytes (line 125: `data_bytes % 16`): for a single
11-byte row-group it appends 11 zero bytes — the stream is 86 bytes
(64 header + 11 pixel + 11 padding) and its last 11 bytes are the
padding, while the claim requires 5 padding bytes; `11 + 11 = 22` is not
a multiple of 16. -/
theorem c1_padding_eval :
    (Data.to_bytes exampleA).map List.length = .ok 86 ∧
    (Data.to_bytes exampleA).map (List.drop 75) =
      .ok (List.replicate 11 0) ∧
    (16 - 11 % 16) % 16 = 5 ∧ (11 + 11) % 16 ≠ 0 :=
  ⟨rfl, rfl, rfl, by decide⟩

/-- C3 counterexample: on a 17-byte stream the framer of `main`
(`chunks_exact(16)`) yields one chunk, not `ceil(17 / 16) = 2`, and
concatenating the chunks loses the final byte instead of returning the
partial chunk as-is. -/
theorem c3_counterexample :
    (chunkFramer (List.replicate 17 3)).length = 1 ∧
    (17 + 15) / 16 = 2 ∧
    (chunkFramer (List.replicate 17 3)).flatten ≠ List.replicate 17 3 := by
  refine ⟨rfl, rfl, ?_⟩
  decide

/-- C3 amended: the framer produces `floor(length / 16)` chunks whose
concatenation is the first `16 * floor(length / 16)` bytes of the
stream; a final partial chunk is dropped, so the stream is reproduced
exactly precisely when its length is a multiple of 16. -/
theorem c3_chunker_amended (s : List Nat) :
    (chunkFramer s).length = s.length / 16 ∧
    (chunkFramer s).flatten = s.take (16 * (s.length / 16)) ∧
    (s.length % 16 = 0 → (chunkFramer s).flatten = s) := by
  refine ⟨chunksExact_length (by omega) s, chunksExact_flatten (by omega) s, ?_⟩
  intro hdvd
  have h1 : (16 : Nat) * (s.length / 16) = s.length :=
    Nat.mul_div_cancel' (Nat.dvd_of_mod_eq_zero hdvd)
  have h2 := chunksExact_flatten (show 0 < 16 by omega) s
  rw [h1] at h2
  rw [List.take_length] at h2
  exact h2

theorem c3_chunker_witness :
    (chunkFramer (List.replicate 32 7)).flatten = List.replicate 32 7 :=
  (c3_chunker_amended (List.replicate 32 7)).2.2 (by decide)

/-- C4 counterexample: nine slots are not rejected with a size-limit
error before encoding: the loop body panics — `modes[8]` is out of
bounds when the ninth slot does not flash, and the shift `1 << 8`
overflows first when it does — so the failure is an incidental panic
whose kind depends on the slot contents, not a size-limit check. -/
theorem c4_counterexample :
    Data.to_bytes nineQuiet = .error (.indexOutOfBounds 8) ∧
    Data.to_bytes nineFlash = .error .shiftOverflow := ⟨rfl, rfl⟩

/-- C4 amended: with more than 8 slots `to_bytes` always aborts with a
panic (modelled as an error) before returning any bytes; it never
returns a truncated or bit-wrapped stream, but the abort is a panic,
not a size-limit error value. -/
theorem c4_overflow_errors (d : Data) (h : 8 < d.bitmaps.length) :
    ∃ e, Data.to_bytes d = .error e := by
  cases hf : d.bitmaps.enum.foldlM headerStep acc0 with
  | ok accR =>
    exfalso
    have hm := foldlM_headerStep_ok_indices _ _ _ hf (8, d.bitmaps[8])
      (mem_enum_of_lt (by omega))
    simp [acc0] at hm
  | error e =>
    refine ⟨e, ?_⟩
    simp only [Data.to_bytes, hf, errBind]

theorem c4_overflow_errors_witness :
    ∃ e, Data.to_bytes nineQuiet = .error e :=
  c4_overflow_errors nineQuiet (by decide)

/-- C2: for one slot with flash=false, marquee=false, mode=Fixed,
speed=5 and data = rasterization of a single character, the code does
produce the claimed 64 header bytes (magic, zero bitmasks, mode byte
0x54, big-endian size table starting with 1, 32 reserved zeros) followed
by the 11 pixel bytes — but then appends 11 trailing zero bytes, not 5,
for a total of 86 bytes rather than the claimed 80. -/
theorem c2_end_to_end_eval (g : Char → Fin 7 → Nat) :
    Data.to_bytes ⟨[⟨false, false, .fixed, 5, rasterize g [ 'A' ]⟩]⟩ =
      .ok (hdr64 ++ rasterize g [ 'A' ] ++ List.replicate 11 0) ∧
    (hdr64 ++ rasterize g [ 'A' ] ++ List.replicate 11 0).length = 86 := by
  have hlen : (rasterize g [ 'A' ]).length = 11 := by
    rw [rasterize_length]
    rfl
  have hchunks : chunksExact 11 (rasterize g [ 'A' ]) = [rasterize g [ 'A' ]] :=
    chunksExact_self (by omega) hlen
  constructor
  · rw [to_bytes_ok _ (by simp)]
    have hsz : sizeEntry ⟨false, false, .fixed, 5, rasterize g [ 'A' ]⟩ = 1 := by
      simp only [sizeEntry, hchunks]
      rfl
    have hfoldEq :
        headerFold 0 [⟨false, false, .fixed, 5, rasterize g [ 'A' ]⟩] acc0 =
          ⟨0, 0, (List.replicate 8 0).set 0 84, (List.replicate 8 0).set 0 1⟩ := by
      simp only [headerFold, applyHdr, acc0]
      rw [hsz]
      simp [modeByte, Mode.toU8]
    have hpix :
        pixelBytes ⟨[⟨false, false, .fixed, 5, rasterize g [ 'A' ]⟩]⟩ =
          rasterize g [ 'A' ] := by
      simp only [pixelBytes, pixelChunks, List.map_cons, List.map_nil,
        List.flatten_cons, List.flatten_nil, List.append_nil, hchunks]
    have hdb :
        dbCounter ⟨[⟨false, false, .fixed, 5, rasterize g [ 'A' ]⟩]⟩ = 11 := by
      simp only [dbCounter, pixelChunks, List.map_cons, List.map_nil,
        List.flatten_cons, List.flatten_nil, List.append_nil, hchunks]
      rfl
    have hpad :
        trailPad ⟨[⟨false, false, .fixed, 5, rasterize g [ 'A' ]⟩]⟩ =
          List.replicate 11 0 := by
      rw [trailPad, hdb]
    rw [hfoldEq, hpix, hpad]
    rfl
  · rw [List.length_append, List.length_append, hlen, List.length_replicate]
    rfl

/-- C5 counterexample: a slot holding 65536 row-groups (count 65536 >
65535) is not rejected: `to_bytes` succeeds, returning a 720973-byte
stream (the u16 size entry silently wraps to 0). -/
theorem c5_counterexample :
    (∃ s, Data.to_bytes bigData = .ok s ∧ s.length = 720973) ∧
    ∀ b ∈ bigData.bitmaps, b.data.length / 11 = 65536 := by
  have hpc : pixelChunks bigData = List.replicate 65536 (List.replicate 11 0) := by
    simp only [bigData, pixelChunks, List.map_cons, List.map_nil,
      List.flatten_cons, List.flatten_nil, List.append_nil]
    exact chunksExact_replicate (by omega) 65536 0
  have hm8 : (headerFold 0 bigData.bitmaps acc0).modes.length = 8 := by
    rw [headerFold_modes_length]; simp [acc0]
  have hs8 : (headerFold 0 bigData.bitmaps acc0).sizes.length = 8 := by
    rw [headerFold_sizes_length]; simp [acc0]
  have hdbc : dbCounter bigData = 253 := by
    rw [dbCounter, hpc, foldl_dbf_replicate]
    exact dbf_iter_ge 65536 (by omega)
  constructor
  · refine ⟨_, to_bytes_ok bigData (by decide), ?_⟩
    rw [List.length_append, List.length_append,
      headerBytes_length _ hm8 hs8, pixelBytes, hpc,
      flatten_replicate_replicate, List.length_replicate, trailPad, hdbc,
      List.length_replicate]
  · intro b hb
    simp only [bigData, List.mem_cons, List.not_mem_nil, or_false] at hb
    subst hb
    rw [List.length_replicate]

/-- C5 amended: a row-group count above 65535 is not rejected — the
encoder succeeds for any ≤ 8 slots, and each u16 size-table entry (2
bytes starting at offset 16 + 2·i) holds the row-group count reduced
modulo 65536, so counts above 65535 wrap silently. -/
theorem c5_size_entry_wraps (d : Data) (hd : d.bitmaps.length ≤ 8) (i : Nat)
    (hi : i < d.bitmaps.length) :
    ∃ s, Data.to_bytes d = .ok s ∧
      (s.drop (16 + 2 * i)).take 2 =
        be16 ((d.bitmaps[i].data.length / 11) % 65536) := by
  refine ⟨_, to_bytes_ok d hd, ?_⟩
  have hm8 : (headerFold 0 d.bitmaps acc0).modes.length = 8 := by
    rw [headerFold_modes_length]; simp [acc0]
  have hs8 : (headerFold 0 d.bitmaps acc0).sizes.length = 8 := by
    rw [headerFold_sizes_length]; simp [acc0]
  have hi8 : i < 8 := Nat.lt_of_lt_of_le hi hd
  have hig : i < (headerFold 0 d.bitmaps acc0).sizes.length := by omega
  have hEntry2 : (headerFold 0 d.bitmaps acc0).sizes[i] =
      sizeEntry d.bitmaps[i] := by
    have hE := headerFold_sizes_getElem d.bitmaps 0 acc0 i
      (by simp [acc0]; omega) hi
    rw [Nat.zero_add, List.getElem?_eq_getElem hig] at hE
    exact Option.some.inj hE
  have hAlen :
      (magicBytes ++ (headerFold 0 d.bitmaps acc0).flash ::
        (headerFold 0 d.bitmaps acc0).marquee ::
        (headerFold 0 d.bitmaps acc0).modes).length = 16 := by
    simp [magicBytes, hm8]
  rw [List.append_assoc, headerBytes_decomp]
  rw [show 16 + 2 * i =
      (magicBytes ++ (headerFold 0 d.bitmaps acc0).flash ::
        (headerFold 0 d.bitmaps acc0).marquee ::
        (headerFold 0 d.bitmaps acc0).modes).length + 2 * i by rw [hAlen]]
  rw [List.drop_append, List.drop_append_eq_append_drop]
  rw [show 2 * i - (((headerFold 0 d.bitmaps acc0).sizes.map be16).flatten).length = 0 by
    rw [be16_flatten_length, hs8]; omega]
  rw [List.drop_zero, be16_flatten_drop i _ (by omega),
    ← List.getElem_cons_drop _ i hig, List.map_cons, List.flatten_cons,
    List.append_assoc, be16_take, hEntry2, sizeEntry,
    chunksExact_length (by omega)]

theorem c5_size_entry_wraps_witness :
    ∃ s, Data.to_bytes smallData = .ok s ∧
      (s.drop 16).take 2 = [0, 2] := by
  have h := c5_size_entry_wraps smallData (by decide) 0 (by decide)
  simpa [smallData, be16] using h

/-- C6: rasterization yields exactly `text.length * 11` bytes in
character order; each character's 11-byte block has rows 0, 1, 9, 10
zero and rows 2–8 equal, in order, to the glyph table's 7 rows. -/
theorem c6_rasterize_shape (g : Char → Fin 7 → Nat) (s : List Char) :
    (rasterize g s).length = s.length * 11 ∧
    ∀ k (hk : k < s.length),
      ((rasterize g s).drop (11 * k)).take 11 =
        [0, 0, g s[k] 0, g s[k] 1, g s[k] 2, g s[k] 3, g s[k] 4, g s[k] 5,
          g s[k] 6, 0, 0] := by
  refine ⟨rasterize_length g s, ?_⟩
  intro k hk
  rw [rasterize_block g s k hk, charBlock_eq]

theorem c6_rasterize_shape_witness :
    (rasterize wGlyph [ 'A' ]).length = 1 * 11 ∧
    ((rasterize wGlyph [ 'A' ]).drop (11 * 0)).take 11 =
      [0, 0, 1, 2, 3, 4, 5, 6, 7, 0, 0] := by
  refine ⟨(c6_rasterize_shape wGlyph [ 'A' ]).1, ?_⟩
  exact ((c6_rasterize_shape wGlyph [ 'A' ]).2 0 (by decide)).trans (by decide)

/-- C7: for at most 8 slots, byte 6 of the stream is the OR of `1 << i`
over the flashing slots and byte 7 the OR over the marquee slots. -/
theorem c7_bitmasks (d : Data) (hd : d.bitmaps.length ≤ 8) :
    ∃ s, Data.to_bytes d = .ok s ∧
      s[6]? = some (specFlashMask d.bitmaps) ∧
      s[7]? = some (specMarqueeMask d.bitmaps) := by
  refine ⟨_, to_bytes_ok d hd, ?_, ?_⟩
  all_goals
    have hm8 : (headerFold 0 d.bitmaps acc0).modes.length = 8 := by
      rw [headerFold_modes_length]; simp [acc0]
    have hs8 : (headerFold 0 d.bitmaps acc0).sizes.length = 8 := by
      rw [headerFold_sizes_length]; simp [acc0]
    have h64 : (headerBytes (headerFold 0 d.bitmaps acc0)).length = 64 :=
      headerBytes_length _ hm8 hs8
    rw [List.getElem?_append_left (by rw [List.length_append, h64]; omega),
      List.getElem?_append_left (by rw [h64]; omega)]
    simp only [headerBytes]
    rw [List.getElem?_append_right (by simp [magicBytes])]
    simp only [magicBytes, List.length_cons, List.length_nil]
  · rw [show (6 : Nat) - 6 = 0 from rfl, List.getElem?_cons_zero]
    exact congrArg some ((headerFold_flash d.bitmaps 0 acc0).trans rfl)
  · rw [show (7 : Nat) - 6 = 1 from rfl, List.getElem?_cons_succ,
      List.getElem?_cons_zero]
    exact congrArg some ((headerFold_marquee d.bitmaps 0 acc0).trans rfl)

theorem c7_bitmasks_witness :
    ∃ s, Data.to_bytes maskData = .ok s ∧
      s[6]? = some 5 ∧ s[7]? = some 6 := by
  obtain ⟨s, h1, h2, h3⟩ := c7_bitmasks maskData (by decide)
  exact ⟨s, h1, h2.trans rfl, h3.trans rfl⟩

/-- C8: for any slot with speed in [0, 15], decoding the packed byte
`(speed << 4) | mode` — high nibble as speed, low nibble as mode code —
recovers the original speed and mode (all 9 mode codes 0–8). -/
theorem c8_mode_roundtrip (b : Bitmap) (hs : b.speed ≤ 15) :
    nibbleHigh (modeByte b) = b.speed ∧
    Mode.ofCode (nibbleLow (modeByte b)) = some b.mode := by
  obtain ⟨fl, mq, m, sp, dt⟩ := b
  simp only [modeByte, nibbleHigh, nibbleLow] at *
  interval_cases sp <;> cases m <;> exact ⟨rfl, rfl⟩

theorem c8_mode_roundtrip_witness :
    nibbleHigh (modeByte ⟨false, false, .laser, 15, []⟩) = 15 ∧
    Mode.ofCode (nibbleLow (modeByte ⟨false, false, .laser, 15, []⟩)) =
      some Mode.laser :=
  c8_mode_roundtrip ⟨false, false, .laser, 15, []⟩ (by decide)

/-- C9: encoding is deterministic — a pure function of the ordered slot
sequence, with no hidden state: two `Data` values with the same slots
encode to byte-identical results. -/
theorem c9_deterministic (d₁ d₂ : Data) (h : d₁.bitmaps = d₂.bitmaps) :
    Data.to_bytes d₁ = Data.to_bytes d₂ := by
  cases d₁
  cases d₂
  cases h
  rfl

theorem c9_deterministic_witness :
    Data.to_bytes exampleA = Data.to_bytes ⟨exampleA.bitmaps⟩ :=
  c9_deterministic exampleA ⟨exampleA.bitmaps⟩ rfl

/-- C10: `put_string` replaces the slot's pixel data — whatever `data`
the slot held before, afterwards it is exactly the rasterization of the
string, of length `text.length * 11`. -/
theorem c10_put_string_replaces (g : Char → Fin 7 → Nat) (b : Bitmap)
    (s : List Char) :
    (Bitmap.put_string g b s).data = rasterize g s ∧
    (Bitmap.put_string g b s).data.length = s.length * 11 := by
  refine ⟨put_string_data g b s, ?_⟩
  rw [put_string_data g b s, rasterize_length]
